import Mathlib

/-!
Shallow embedding of `src/copy-issue-labels.ts` (kaizencc/pr-triage-manager).

JavaScript `Set<string>` values are modelled as insertion-ordered duplicate-free
lists: `add` appends when absent (JS `Set.add` keeps the original position of an
existing element), `delete` filters, and iteration order is list order, exactly
as JS `Set` iteration follows insertion order.  Regex scanning of the PR body is
modelled by a direct character scanner that reproduces `String.matchAll` for the
two patterns the code uses (leftmost match, greedy runs, continuation after each
match); the unescaped `.` of the interpolated pattern text matches any character,
as it does in the source's regex.
-/

namespace PrTriage

abbrev Label := String

/-- JS `Set.delete`: remove every occurrence of `x` (there is at most one). -/
def sdel (s : List Label) (x : Label) : List Label :=
  s.filter (fun y => y ≠ x)

/-- JS `Set.add`: append `x` when absent, keep the set unchanged when present. -/
def sadd (s : List Label) (x : Label) : List Label :=
  if x ∈ s then s else s ++ [x]

/-- `new Set(iterable)`: keep the first occurrence of each element, in order. -/
def dedupFirst (xs : List Label) : List Label :=
  xs.foldl sadd []

/-- The three configured candidate lists of `PullRequestLabelManager`. -/
structure Config where
  priorityLabels : List Label
  classificationLabels : List Label
  effortLabels : List Label
deriving Repr, DecidableEq

/-- Constructor defaulting (`options.x ?? [...]`); no validation is performed. -/
def mkConfig (pri cls eff : Option (List Label)) : Config where
  priorityLabels := pri.getD ["p0", "p1", "p2"]
  classificationLabels := cls.getD ["bug", "feature-request"]
  effortLabels := eff.getD ["effort/large", "effort/medium", "effort/small"]

def defaultCfg : Config := mkConfig none none none

/-- GITHUB_CLOSE_ISSUE_KEYWORDS from the source. -/
def GITHUB_CLOSE_ISSUE_KEYWORDS : List String :=
  ["close", "closes", "closed", "fix", "fixes", "fixed",
   "resolve", "resolves", "resolved"]

/-- `highestPriorityLabel`: first priority label in the issue union, else first
in the PR's own labels, else `priorityLabels[priorityLabels.length-1]` (which is
`undefined`, i.e. `none`, on an empty list). -/
def highestPriorityLabel (cfg : Config) (issueLabels pullLabels : List Label) :
    Option Label :=
  (cfg.priorityLabels.find? (fun l => decide (l ∈ issueLabels))).orElse (fun _ =>
    (cfg.priorityLabels.find? (fun l => decide (l ∈ pullLabels))).orElse (fun _ =>
      cfg.priorityLabels.getLast?))

/-- `classification`: first classification candidate present in `labels`. -/
def classification (cfg : Config) (labels : List Label) : Option Label :=
  cfg.classificationLabels.find? (fun l => decide (l ∈ labels))

/-- `largestEffort`: first effort candidate present in `labels`. -/
def largestEffort (cfg : Config) (labels : List Label) : Option Label :=
  cfg.effortLabels.find? (fun l => decide (l ∈ labels))

/-- `replaceLabels(labels, remove, replace)`: when `replace` is defined, delete
every element of `remove` from the set, then add `replace`; otherwise no-op. -/
def replaceLabels (labels : List Label) (remove : List Label)
    (replace : Option Label) : List Label :=
  match replace with
  | none => labels
  | some r => sadd (remove.foldl sdel labels) r

/-- The three `replaceLabels` calls of `copyLabelsFromReferencedIssues` applied
in order to a copy of the PR's label set. -/
def newPullLabels (cfg : Config) (pullLabels issueLabels : List Label) :
    List Label :=
  replaceLabels
    (replaceLabels
      (replaceLabels pullLabels cfg.priorityLabels
        (highestPriorityLabel cfg issueLabels pullLabels))
      cfg.classificationLabels (classification cfg issueLabels))
    cfg.effortLabels (largestEffort cfg issueLabels)

structure SetDiff where
  adds : List Label
  removes : List Label
deriving Repr, DecidableEq

/-- `setDiff(xs, ys)`: push each `y ∈ ys` missing from `xs` onto `adds`, then
each `x ∈ xs` missing from `ys` onto `removes`, in iteration order. -/
def setDiff (xs ys : List Label) : SetDiff where
  adds := ys.filter (fun y => decide (y ∉ xs))
  removes := xs.filter (fun x => decide (x ∉ ys))

def isEmptyDiff (d : SetDiff) : Bool :=
  d.adds.length + d.removes.length == 0

/-- Regex `\w`: the ASCII word characters `[A-Za-z0-9_]`. -/
def isWordChar (c : Char) : Bool :=
  c.isAlphanum || c == '_'

/-- Regex `\d`: the ASCII digits. -/
def isDigitChar (c : Char) : Bool :=
  c.isDigit

/-- Match of `(\w+) #(\d+)` anchored at the start of `cs`: a maximal nonempty
word-character run, a space, `#`, a maximal nonempty digit run.  (`\w+` cannot
backtrack here because it is followed by a non-word character.)  Returns the two
capture groups and the remaining text after the match. -/
def tryHashAt (cs : List Char) : Option (List Char × List Char × List Char) :=
  let ws := cs.span isWordChar
  if ws.1.isEmpty then none else
  match ws.2 with
  | ' ' :: '#' :: r2 =>
    let ds := r2.span isDigitChar
    if ds.1.isEmpty then none else some (ws.1, ds.1, ds.2)
  | _ => none

/-- Literal text of an unescaped regex: each pattern character must equal the
input character, except `.` which matches any character (the source interpolates
`https://github.com/owner/repo/issues/` without escaping). -/
def matchPat : List Char → List Char → Option (List Char)
  | [], rest => some rest
  | _ :: _, [] => none
  | p :: ps, c :: cs => if p == '.' || p == c then matchPat ps cs else none

/-- The literal part of the URL regex for a given owner and repo. -/
def urlPat (owner repo : String) : List Char :=
  ("https://github.com/" ++ owner ++ "/" ++ repo ++ "/issues/").toList

/-- Match of ``(\w+) https://github.com/owner/repo/issues/(\d+)`` anchored at
the start of `cs`. -/
def tryUrlAt (owner repo : String) (cs : List Char) :
    Option (List Char × List Char × List Char) :=
  let ws := cs.span isWordChar
  if ws.1.isEmpty then none else
  match ws.2 with
  | ' ' :: r1 =>
    match matchPat (urlPat owner repo) r1 with
    | some r2 =>
      let ds := r2.span isDigitChar
      if ds.1.isEmpty then none else some (ws.1, ds.1, ds.2)
    | none => none
  | _ => none

/-- `String.matchAll` for an anchored matcher `tryAt`: find the leftmost match,
emit its capture groups, continue after the matched text.  `fuel` bounds the
recursion; `scan` instantiates it with the text length, which suffices because
every step consumes at least one character. -/
def scanAux (tryAt : List Char → Option (List Char × List Char × List Char)) :
    Nat → List Char → List (List Char × List Char)
  | 0, _ => []
  | _, [] => []
  | fuel + 1, c :: cs =>
    match tryAt (c :: cs) with
    | some (w, d, rest) => (w, d) :: scanAux tryAt fuel rest
    | none => scanAux tryAt fuel cs

def scan (tryAt : List Char → Option (List Char × List Char × List Char))
    (cs : List Char) : List (List Char × List Char) :=
  scanAux tryAt cs.length cs

def scanHash (cs : List Char) : List (List Char × List Char) :=
  scan tryHashAt cs

def scanUrl (owner repo : String) (cs : List Char) :
    List (List Char × List Char) :=
  scan (tryUrlAt owner repo) cs

/-- `m[1].toLowerCase()`: the captured groups are ASCII word characters, so the
ASCII lowering of `Char.toLower` coincides with JS `toLowerCase`. -/
def lowerStr (w : List Char) : String :=
  String.mk (w.map Char.toLower)

/-- `issuesClosed(regex)`: keep the matches whose first capture group lowercases
to a closing keyword, and project onto the second capture group. -/
def issuesClosed (ms : List (List Char × List Char)) : List (List Char) :=
  (ms.filter
    (fun m => decide (lowerStr m.1 ∈ GITHUB_CLOSE_ISSUE_KEYWORDS))).map
    (fun m => m.2)

/-- `parseInt(x, 10)` on a nonempty digit string. -/
def parseDigits (d : List Char) : Nat :=
  d.foldl (fun n c => 10 * n + (c.toNat - 48)) 0

/-- `findReferencedIssues`: hash-pattern results concatenated with URL-pattern
results, each parsed in base 10. -/
def findReferencedIssues (owner repo : String) (text : String) : List Nat :=
  let cs := text.toList
  let issuesClosedByHash := issuesClosed (scanHash cs)
  let issuesClosedByUrl := issuesClosed (scanUrl owner repo cs)
  (issuesClosedByHash ++ issuesClosedByUrl).map parseDigits

/-- Constructor selection of `this.pullNumbers`: the supplied list when present
and nonempty, else `[]`; then the context pull request number, when the payload
has one, is pushed onto that list unconditionally. -/
def selectPullNumbers (optPullNumbers : Option (List Nat))
    (contextPull : Option Nat) : List Nat :=
  let base : List Nat :=
    match optPullNumbers with
    | some ns => if ns.length > 0 then ns else []
    | none => []
  match contextPull with
  | some n => base ++ [n]
  | none => base

/-- `doPulls`: reconcile each selected pull number in order with sequential
`await` and no error handling, so a raised error aborts the loop.  Returns the
pull numbers whose reconciliation ran to completion, and the first error. -/
def doPulls {E : Type} (recon : Nat → Except E Unit) :
    List Nat → List Nat × Option E
  | [] => ([], none)
  | p :: ps =>
    match recon p with
    | .error e => ([], some e)
    | .ok _ =>
      let r := doPulls recon ps
      (p :: r.1, r.2)

/-- The pure core of `copyLabelsFromReferencedIssues`: extract references from
the body, build the deduplicated pull-label set and the union of the referenced
issues' labels (flattened in reference order, deduplicated by `new Set`), apply
the three category replacements, and diff against the original labels. -/
def reconcileDiff (cfg : Config) (owner repo : String)
    (getIssue : Nat → List Label) (body : String) (rawPullLabels : List Label) :
    List Label × SetDiff :=
  let references := findReferencedIssues owner repo body
  let pullLabels := dedupFirst rawPullLabels
  let issueLabels := dedupFirst (references.map getIssue).flatten
  let newLabels := newPullLabels cfg pullLabels issueLabels
  (newLabels, setDiff pullLabels newLabels)

/-- Gateway fixture for the spec's end-to-end scenario: issue 5 has labels
`p0, bug`; issue 7 has label `effort/large`; other issues have none. -/
def exampleIssueLabels : Nat → List Label := fun n =>
  if n = 5 then ["p0", "bug"]
  else if n = 7 then ["effort/large"] else []

/-- Modelled from the spec claim's words, for comparison with the code (not an
embedding of the source): the issue numbers of a text whose immediately
preceding word — the maximal word-character run in the text, delimited on the
left by a non-word character or the start of the text — case-insensitively
matches a closing keyword, in the `keyword #number` form. -/
def specClosingRefs (cs : List Char) : List Nat :=
  (List.range cs.length).filterMap (fun i =>
    if i = 0 ∨ isWordChar (cs.getD (i - 1) ' ') = false then
      match tryHashAt (cs.drop i) with
      | some (w, d, _) =>
        if lowerStr w ∈ GITHUB_CLOSE_ISSUE_KEYWORDS then
          some (parseDigits d)
        else none
      | none => none
    else none)

/-- At most one label of the candidate list `cand` occurs in the label set
`T` (the spec's per-category mutual-exclusion invariant). -/
def atMostOneOf (cand T : List Label) : Prop :=
  ∀ a ∈ cand, ∀ b ∈ cand, a ∈ T → b ∈ T → a = b

/-! ### Helper lemmas -/

lemma mem_sadd (s : List Label) (a x : Label) :
    x ∈ sadd s a ↔ x ∈ s ∨ x = a := by
  unfold sadd
  by_cases h : a ∈ s
  · simp only [if_pos h]
    constructor
    · exact fun hx => Or.inl hx
    · rintro (hx | rfl) <;> [exact hx; exact h]
  · simp [if_neg h]

lemma mem_sdel (s : List Label) (a x : Label) :
    x ∈ sdel s a ↔ x ∈ s ∧ x ≠ a := by
  simp [sdel]

lemma mem_foldl_sdel (remove : List Label) :
    ∀ (s : List Label) (x : Label),
      x ∈ remove.foldl sdel s ↔ x ∈ s ∧ x ∉ remove := by
  induction remove with
  | nil => intro s x; simp
  | cons a t ih =>
    intro s x
    rw [List.foldl_cons, ih, mem_sdel]
    constructor
    · rintro ⟨⟨hx, hne⟩, ht⟩
      exact ⟨hx, by simp [hne, ht]⟩
    · rintro ⟨hx, hne⟩
      simp only [List.mem_cons, not_or] at hne
      exact ⟨⟨hx, hne.1⟩, hne.2⟩

lemma mem_replaceLabels_some (s rem : List Label) (r x : Label) :
    x ∈ replaceLabels s rem (some r) ↔ (x ∈ s ∧ x ∉ rem) ∨ x = r := by
  rw [replaceLabels, mem_sadd, mem_foldl_sdel]

lemma replaceLabels_none (s rem : List Label) :
    replaceLabels s rem none = s := rfl

lemma find?_decomp {α : Type} (p : α → Bool) :
    ∀ (l : List α) (a : α), l.find? p = some a →
      ∃ l1 l2, l = l1 ++ a :: l2 ∧ p a = true ∧ ∀ x ∈ l1, p x = false := by
  intro l
  induction l with
  | nil => intro a h; simp [List.find?] at h
  | cons b t ih =>
    intro a h
    by_cases hb : p b
    · rw [List.find?_cons_of_pos _ hb, Option.some_inj] at h
      exact ⟨[], t, by simp [h], h ▸ hb, by simp⟩
    · rw [List.find?_cons_of_neg _ hb] at h
      obtain ⟨l1, l2, rfl, hpa, hall⟩ := ih a h
      refine ⟨b :: l1, l2, by simp, hpa, ?_⟩
      intro x hx
      rcases List.mem_cons.mp hx with rfl | hx
      · exact Bool.eq_false_iff.mpr hb
      · exact hall x hx

lemma getLast?_of_ne_nil {α : Type} :
    ∀ (l : List α), l ≠ [] → ∃ r, l.getLast? = some r ∧ r ∈ l := by
  intro l
  induction l with
  | nil => intro h; exact absurd rfl h
  | cons a t ih =>
    intro _
    cases t with
    | nil => exact ⟨a, rfl, by simp⟩
    | cons b u =>
      obtain ⟨r, hr, hmem⟩ := ih (by simp)
      exact ⟨r, by rw [List.getLast?_cons_cons]; exact hr,
        List.mem_cons_of_mem _ hmem⟩

lemma find?_eq_some_of_mem_unique (l : List Label) (r : Label) (hr : r ∈ l) :
    l.find? (fun x => decide (x = r)) = some r := by
  induction l with
  | nil => cases hr
  | cons b t ih =>
    by_cases hb : b = r
    · subst hb; simp [List.find?_cons_of_pos]
    · rw [List.find?_cons_of_neg _ (by simp [hb])]
      exact ih (by rcases List.mem_cons.mp hr with h | h; exact absurd h.symm hb; exact h)

lemma find?_congr_pred {α : Type} (p q : α → Bool) :
    ∀ (l : List α), (∀ x ∈ l, p x = q x) → l.find? p = l.find? q := by
  intro l
  induction l with
  | nil => intro _; rfl
  | cons b t ih =>
    intro h
    have hb := h b (by simp)
    by_cases hpb : p b
    · rw [List.find?_cons_of_pos _ hpb, List.find?_cons_of_pos _ (hb ▸ hpb)]
    · rw [List.find?_cons_of_neg _ hpb, List.find?_cons_of_neg _ (hb ▸ hpb)]
      exact ih (fun x hx => h x (List.mem_cons_of_mem _ hx))

lemma takeWhile_all {p : Char → Bool} {cs : List Char} :
    (cs.takeWhile p).all p = true :=
  List.all_eq_true.mpr (fun _ ha => List.mem_takeWhile_imp ha)

lemma tryHashAt_shape {cs w d rest : List Char}
    (h : tryHashAt cs = some (w, d, rest)) :
    w ≠ [] ∧ w.all isWordChar = true ∧ d ≠ [] ∧ d.all isDigitChar = true := by
  simp only [tryHashAt, List.span_eq_take_drop] at h
  split at h
  · exact absurd h (by simp)
  next hw =>
    split at h
    next hr2 =>
      split at h
      · exact absurd h (by simp)
      next hd =>
        rw [Option.some_inj] at h
        simp only [Prod.mk.injEq] at h
        obtain ⟨hw1, hd1, -⟩ := h
        subst hw1
        subst hd1
        exact ⟨by simpa using hw, takeWhile_all, by simpa using hd,
          takeWhile_all⟩
    · exact absurd h (by simp)

lemma tryUrlAt_shape {owner repo : String} {cs w d rest : List Char}
    (h : tryUrlAt owner repo cs = some (w, d, rest)) :
    w ≠ [] ∧ w.all isWordChar = true ∧ d ≠ [] ∧ d.all isDigitChar = true := by
  simp only [tryUrlAt, List.span_eq_take_drop] at h
  split at h
  · exact absurd h (by simp)
  next hw =>
    split at h
    next hr1 =>
      split at h
      next hmp =>
        split at h
        · exact absurd h (by simp)
        next hd =>
          rw [Option.some_inj] at h
          simp only [Prod.mk.injEq] at h
          obtain ⟨hw1, hd1, -⟩ := h
          subst hw1
          subst hd1
          exact ⟨by simpa using hw, takeWhile_all, by simpa using hd,
            takeWhile_all⟩
      · exact absurd h (by simp)
    · exact absurd h (by simp)

lemma scanAux_mem_shape
    {tryAt : List Char → Option (List Char × List Char × List Char)}
    (hTry : ∀ cs w d rest, tryAt cs = some (w, d, rest) →
      w ≠ [] ∧ w.all isWordChar = true ∧ d ≠ [] ∧ d.all isDigitChar = true) :
    ∀ (fuel : Nat) (cs w d : List Char), (w, d) ∈ scanAux tryAt fuel cs →
      w ≠ [] ∧ w.all isWordChar = true ∧ d ≠ [] ∧ d.all isDigitChar = true := by
  intro fuel
  induction fuel with
  | zero => intro cs w d h; simp [scanAux] at h
  | succ n ih =>
    intro cs w d h
    cases cs with
    | nil => simp [scanAux] at h
    | cons c t =>
      rw [scanAux] at h
      cases htry : tryAt (c :: t) with
      | some m =>
        obtain ⟨w1, d1, rest⟩ := m
        rw [htry] at h
        rcases List.mem_cons.mp h with heq | h
        · simp only [Prod.mk.injEq] at heq
          obtain ⟨rfl, rfl⟩ := heq
          exact hTry _ _ _ _ htry
        · exact ih rest w d h
      | none =>
        rw [htry] at h
        exact ih t w d h

lemma mem_findReferencedIssues {owner repo text : String} {n : Nat}
    (h : n ∈ findReferencedIssues owner repo text) :
    ∃ w d, ((w, d) ∈ scanHash text.toList ∨
        (w, d) ∈ scanUrl owner repo text.toList) ∧
      lowerStr w ∈ GITHUB_CLOSE_ISSUE_KEYWORDS ∧ n = parseDigits d := by
  simp only [findReferencedIssues] at h
  rw [List.mem_map] at h
  obtain ⟨d, hd, rfl⟩ := h
  rw [List.mem_append] at hd
  rcases hd with hd | hd
  · simp only [issuesClosed, List.mem_map] at hd
    obtain ⟨m, hm, rfl⟩ := hd
    rw [List.mem_filter] at hm
    exact ⟨m.1, m.2, Or.inl hm.1, of_decide_eq_true hm.2, rfl⟩
  · simp only [issuesClosed, List.mem_map] at hd
    obtain ⟨m, hm, rfl⟩ := hd
    rw [List.mem_filter] at hm
    exact ⟨m.1, m.2, Or.inr hm.1, of_decide_eq_true hm.2, rfl⟩

lemma highestPriorityLabel_spec (cfg : Config) (I S : List Label)
    (hne : cfg.priorityLabels ≠ []) :
    ∃ r, highestPriorityLabel cfg I S = some r ∧ r ∈ cfg.priorityLabels := by
  unfold highestPriorityLabel
  cases h1 : cfg.priorityLabels.find? (fun l => decide (l ∈ I)) with
  | some w => exact ⟨w, by simp [Option.orElse], List.mem_of_find?_eq_some h1⟩
  | none =>
    cases h2 : cfg.priorityLabels.find? (fun l => decide (l ∈ S)) with
    | some w =>
      exact ⟨w, by simp [Option.orElse, h2], List.mem_of_find?_eq_some h2⟩
    | none =>
      obtain ⟨r, hr, hmem⟩ := getLast?_of_ne_nil _ hne
      exact ⟨r, by simp [Option.orElse, h2, hr], hmem⟩

lemma classification_eq_some {cfg : Config} {U : List Label} {c : Label}
    (h : classification cfg U = some c) :
    c ∈ cfg.classificationLabels ∧ c ∈ U := by
  unfold classification at h
  have h2 : decide (c ∈ U) = true :=
    List.find?_some (p := fun l => decide (l ∈ U)) h
  exact ⟨List.mem_of_find?_eq_some h, of_decide_eq_true h2⟩

lemma largestEffort_eq_some {cfg : Config} {U : List Label} {e : Label}
    (h : largestEffort cfg U = some e) :
    e ∈ cfg.effortLabels ∧ e ∈ U := by
  unfold largestEffort at h
  have h2 : decide (e ∈ U) = true :=
    List.find?_some (p := fun l => decide (l ∈ U)) h
  exact ⟨List.mem_of_find?_eq_some h, of_decide_eq_true h2⟩

lemma mem_replaceLabels_untouched (s rem : List Label) (o : Option Label)
    {x : Label} (hx : x ∉ rem) (hno : ∀ c, o = some c → x ≠ c) :
    x ∈ replaceLabels s rem o ↔ x ∈ s := by
  cases o with
  | none => exact Iff.rfl
  | some c =>
    rw [mem_replaceLabels_some]
    have := hno c rfl
    tauto

lemma priority_mem_newPullLabels {cfg : Config} {S U : List Label} {r : Label}
    (hr : highestPriorityLabel cfg U S = some r)
    (hPC : ∀ a ∈ cfg.priorityLabels, a ∉ cfg.classificationLabels)
    (hPE : ∀ a ∈ cfg.priorityLabels, a ∉ cfg.effortLabels) :
    ∀ p ∈ cfg.priorityLabels, (p ∈ newPullLabels cfg S U ↔ p = r) := by
  intro p hp
  unfold newPullLabels
  rw [hr]
  rw [mem_replaceLabels_untouched _ _ _ (hPE p hp)
    (fun e he hpe => (hPE p hp) (hpe ▸ (largestEffort_eq_some he).1))]
  rw [mem_replaceLabels_untouched _ _ _ (hPC p hp)
    (fun c hc hpc => (hPC p hp) (hpc ▸ (classification_eq_some hc).1))]
  rw [mem_replaceLabels_some]
  constructor
  · rintro (⟨_, hnp⟩ | h)
    · exact absurd hp hnp
    · exact h
  · exact fun h => Or.inr h

/-! ### Claim theorems -/

/-- C1: for every configured non-empty priority list, every issue-label union
and every PR label set, `highestPriorityLabel` returns the first priority-list
entry present in the issue-label union; failing that, the first entry present in
the PR's own label set; failing both, the last entry of the priority list — so
it always returns exactly one label from the configured priority list. -/
theorem c1_priority_resolution_total (cfg : Config) (I S : List Label)
    (hne : cfg.priorityLabels ≠ []) :
    ∃ r, highestPriorityLabel cfg I S = some r ∧ r ∈ cfg.priorityLabels ∧
      ((∃ l1 l2, cfg.priorityLabels = l1 ++ r :: l2 ∧ r ∈ I ∧
          ∀ x ∈ l1, x ∉ I) ∨
       ((∀ x ∈ cfg.priorityLabels, x ∉ I) ∧
         ∃ l1 l2, cfg.priorityLabels = l1 ++ r :: l2 ∧ r ∈ S ∧
           ∀ x ∈ l1, x ∉ S) ∨
       ((∀ x ∈ cfg.priorityLabels, x ∉ I) ∧ (∀ x ∈ cfg.priorityLabels, x ∉ S) ∧
         cfg.priorityLabels.getLast? = some r)) := by
  unfold highestPriorityLabel
  cases h1 : cfg.priorityLabels.find? (fun l => decide (l ∈ I)) with
  | some w =>
    obtain ⟨l1, l2, heq, hpw, hall⟩ := find?_decomp _ _ _ h1
    refine ⟨w, by simp [Option.orElse], ?_, Or.inl ⟨l1, l2, heq, ?_, ?_⟩⟩
    · rw [heq]; exact List.mem_append_right _ (List.mem_cons_self _ _)
    · exact of_decide_eq_true hpw
    · intro x hx
      have := hall x hx
      simpa using this
  | none =>
    have hI : ∀ x ∈ cfg.priorityLabels, x ∉ I := by
      intro x hx
      have := List.find?_eq_none.mp h1 x hx
      simpa using this
    cases h2 : cfg.priorityLabels.find? (fun l => decide (l ∈ S)) with
    | some w =>
      obtain ⟨l1, l2, heq, hpw, hall⟩ := find?_decomp _ _ _ h2
      refine ⟨w, by simp [Option.orElse, h2], ?_,
        Or.inr (Or.inl ⟨hI, l1, l2, heq, of_decide_eq_true hpw, ?_⟩)⟩
      · rw [heq]; exact List.mem_append_right _ (List.mem_cons_self _ _)
      · intro x hx
        have := hall x hx
        simpa using this
    | none =>
      have hS : ∀ x ∈ cfg.priorityLabels, x ∉ S := by
        intro x hx
        have := List.find?_eq_none.mp h2 x hx
        simpa using this
      obtain ⟨r, hr, hmem⟩ := getLast?_of_ne_nil _ hne
      exact ⟨r, by simp [Option.orElse, h2, hr], hmem,
        Or.inr (Or.inr ⟨hI, hS, hr⟩)⟩

/-- C1 witness: concrete instance with the default configuration, issue union
containing no priority label and PR labels containing `p1`. -/
theorem c1_priority_resolution_total_witness :
    defaultCfg.priorityLabels ≠ [] ∧
    ∃ r, highestPriorityLabel defaultCfg ["bug"] ["p1"] = some r ∧
      r ∈ defaultCfg.priorityLabels ∧
      ((∃ l1 l2, defaultCfg.priorityLabels = l1 ++ r :: l2 ∧ r ∈ ["bug"] ∧
          ∀ x ∈ l1, x ∉ (["bug"] : List Label)) ∨
       ((∀ x ∈ defaultCfg.priorityLabels, x ∉ (["bug"] : List Label)) ∧
         ∃ l1 l2, defaultCfg.priorityLabels = l1 ++ r :: l2 ∧ r ∈ ["p1"] ∧
           ∀ x ∈ l1, x ∉ (["p1"] : List Label)) ∨
       ((∀ x ∈ defaultCfg.priorityLabels, x ∉ (["bug"] : List Label)) ∧
         (∀ x ∈ defaultCfg.priorityLabels, x ∉ (["p1"] : List Label)) ∧
         defaultCfg.priorityLabels.getLast? = some r)) :=
  ⟨by decide, c1_priority_resolution_total defaultCfg ["bug"] ["p1"] (by decide)⟩

/-- C3: with a defined resolution, `replaceLabels` removes every label of the
category's candidate list from the working set and then adds the resolved label;
with an undefined resolution it leaves the working set unchanged. -/
theorem c3_replaceLabels_semantics (labels remove : List Label) (r : Label) :
    replaceLabels labels remove none = labels ∧
    ∀ x, x ∈ replaceLabels labels remove (some r) ↔
      (x ∈ labels ∧ x ∉ remove) ∨ x = r :=
  ⟨rfl, fun x => mem_replaceLabels_some labels remove r x⟩

/-- C4: `setDiff` returns `adds` = exactly the new-set labels missing from the
original, `removes` = exactly the original labels missing from the new set;
hence `adds` and `removes` are disjoint, and the diff is empty exactly when the
two sets have the same members. -/
theorem c4_setDiff_characterization (xs ys : List Label) :
    (∀ a, a ∈ (setDiff xs ys).adds ↔ a ∈ ys ∧ a ∉ xs) ∧
    (∀ a, a ∈ (setDiff xs ys).removes ↔ a ∈ xs ∧ a ∉ ys) ∧
    (∀ a, a ∈ (setDiff xs ys).adds → a ∉ (setDiff xs ys).removes) ∧
    (isEmptyDiff (setDiff xs ys) = true ↔ ∀ a, a ∈ xs ↔ a ∈ ys) := by
  refine ⟨?_, ?_, ?_, ?_⟩
  · intro a; simp [setDiff, List.mem_filter]
  · intro a; simp [setDiff, List.mem_filter]
  · intro a ha hr
    simp [setDiff, List.mem_filter] at ha hr
    exact hr.2 ha.1
  · rw [isEmptyDiff]
    simp only [beq_iff_eq, Nat.add_eq_zero, List.length_eq_zero, setDiff,
      List.filter_eq_nil_iff]
    constructor
    · rintro ⟨hadds, hrem⟩ a
      constructor
      · intro hx
        by_contra hy
        exact (by simpa [hy] using hrem a hx)
      · intro hy
        by_contra hx
        exact (by simpa [hx] using hadds a hy)
    · intro h
      constructor
      · intro a ha
        simp [(h a).mpr ha]
      · intro a ha
        simp [(h a).mp ha]

/-- C2 counterexample: with the body `Fixes #5 and #7` only issue 5 is matched
(`and` is not a closing keyword, and the hash pattern requires a keyword
immediately before each `#number`), so the new label set is `{p0, bug}` —
without `effort/large` — and the diff adds only `[p0, bug]`, contradicting the
claimed new set `{p0, bug, effort/large}`. -/
theorem c2_end_to_end_counterexample :
    findReferencedIssues "kaizencc" "pr-triage-manager" "Fixes #5 and #7" =
      [5] ∧
    reconcileDiff defaultCfg "kaizencc" "pr-triage-manager" exampleIssueLabels
      "Fixes #5 and #7" ["p2", "feature-request"] =
      (["p0", "bug"],
       { adds := ["p0", "bug"], removes := ["p2", "feature-request"] }) ∧
    "effort/large" ∉
      (reconcileDiff defaultCfg "kaizencc" "pr-triage-manager"
        exampleIssueLabels "Fixes #5 and #7" ["p2", "feature-request"]).1 := by
  refine ⟨by decide, by decide, by decide⟩

/-- C2 amended: the scenario holds once each referenced issue gets its own
closing keyword — body `Fixes #5, fixes #7` — with default candidate lists,
issue 5 labelled `{p0, bug}`, issue 7 labelled `{effort/large}` and current PR
labels `{p2, feature-request}`: the new label set is `{p0, bug, effort/large}`
with adds `[p0, bug, effort/large]` and removes `[p2, feature-request]`. -/
theorem c2_end_to_end_amended :
    findReferencedIssues "kaizencc" "pr-triage-manager" "Fixes #5, fixes #7" =
      [5, 7] ∧
    reconcileDiff defaultCfg "kaizencc" "pr-triage-manager" exampleIssueLabels
      "Fixes #5, fixes #7" ["p2", "feature-request"] =
      (["p0", "bug", "effort/large"],
       { adds := ["p0", "bug", "effort/large"],
         removes := ["p2", "feature-request"] }) := by
  refine ⟨by decide, by decide⟩

/-- C7: with an explicitly configured pull-number list `[1, 2]` and a triggering
event context carrying pull request 3, the constructor selects `[1, 2, 3]`: the
context-derived number is appended even though an explicit list was supplied, so
an explicit list does not exclude the context-derived PR number. -/
theorem c7_explicit_list_does_not_exclude_context :
    selectPullNumbers (some [1, 2]) (some 3) = [1, 2, 3] ∧
    selectPullNumbers (some [1, 2]) none = [1, 2] ∧
    selectPullNumbers none (some 3) = [3] := by
  refine ⟨rfl, rfl, rfl⟩

/-- C9: constructing with an empty priority list does not fail — the
constructor stores the empty list unchanged — and priority resolution then
yields no label (`undefined`), so `replaceLabels` silently leaves the working
set untouched instead of a configuration error being raised. -/
theorem c9_empty_priority_list_accepted :
    (mkConfig (some []) none none).priorityLabels = [] ∧
    highestPriorityLabel (mkConfig (some []) none none) ["p0"] ["p1"] = none ∧
    newPullLabels (mkConfig (some []) none none) ["p1"] ["p0"] = ["p1"] := by
  refine ⟨rfl, rfl, by decide⟩

/-- C8 counterexample: reconciling pulls `[1, 2]` where reconciliation of pull 1
raises: `doPulls` stops at the error and pull 2 is never reconciled, so a
failure on one PR does abort the processing of the remaining PRs. -/
theorem c8_failure_aborts_counterexample :
    doPulls (fun p => if p = 1 then .error "boom" else .ok ()) [1, 2] =
      ([], some "boom") ∧
    2 ∉ (doPulls (fun p => if p = 1 then .error "boom" else .ok ()) [1, 2]).1 := by
  refine ⟨rfl, by decide⟩

/-- C8 amended: a raised error while reconciling one PR aborts the sequential
loop — the PRs before the failing one are already reconciled, and none of the
PRs after it is processed. -/
theorem c8_failure_aborts_rest {E : Type} (recon : Nat → Except E Unit)
    (pre : List Nat) (p : Nat) (post : List Nat) (e : E)
    (hpre : ∀ q ∈ pre, recon q = .ok ())
    (hp : recon p = .error e) :
    doPulls recon (pre ++ p :: post) = (pre, some e) := by
  induction pre with
  | nil =>
    simp only [List.nil_append, doPulls, hp]
  | cons a t ih =>
    have ha : recon a = .ok () := hpre a (by simp)
    have ht : doPulls recon (t ++ p :: post) = (t, some e) :=
      ih (fun q hq => hpre q (List.mem_cons_of_mem _ hq))
    simp only [List.cons_append, doPulls, ha, List.append_eq, ht]

/-- C8 amended witness: pulls `[1, 2, 3]` with reconciliation failing at 2:
pull 1 completes, the error is reported, pull 3 is never processed. -/
theorem c8_failure_aborts_rest_witness :
    (∀ q ∈ [1], (fun p => if p = 2 then .error "boom" else .ok ()) q =
      (Except.ok () : Except String Unit)) ∧
    (fun p => if p = 2 then .error "boom" else .ok ()) 2 =
      (Except.error "boom" : Except String Unit) ∧
    doPulls (fun p => if p = 2 then .error "boom" else .ok ()) [1, 2, 3] =
      ([1], some "boom") :=
  have hpre : ∀ q ∈ [1],
      (fun p => if p = 2 then .error "boom" else .ok ()) q =
        (Except.ok () : Except String Unit) := by
    intro q hq
    rcases List.mem_cons.mp hq with rfl | h
    · rfl
    · cases h
  ⟨hpre, rfl,
    c8_failure_aborts_rest (fun p => if p = 2 then .error "boom" else .ok ())
      [1] 2 [3] "boom" hpre rfl⟩

/-- C5 counterexample: on the body `fix #5fix #6` the code returns `[5, 6]`
(the URL pattern matches nothing there), yet the word immediately preceding
`#6` in the text is `5fix`, which matches no closing keyword: the spec-side
reading `specClosingRefs` accepts only issue 5.  The discrepancy arises because
global matching is non-overlapping: after consuming `fix #5`, the scan restarts
inside the word `5fix` and captures only its suffix `fix`. -/
theorem c5_keyword_filter_counterexample :
    findReferencedIssues "o" "r" "fix #5fix #6" = [5, 6] ∧
    scanUrl "o" "r" ("fix #5fix #6" : String).toList = [] ∧
    specClosingRefs ("fix #5fix #6" : String).toList = [5] ∧
    6 ∉ specClosingRefs ("fix #5fix #6" : String).toList := by
  refine ⟨by decide, by decide, by decide, by decide⟩

/-- C5 amended: `findReferencedIssues` is a total function returning the
hash-pattern results concatenated with the URL-pattern results, without
deduplication; every returned number is parsed from a scan match whose captured
word — a nonempty word-character run that, because global matching is
non-overlapping, may be only a suffix of the full word textually preceding the
number — case-insensitively equals a closing keyword; e.g. `Fixes #12` yields
`[12]`, `Mentions #12` yields `[]`, and `fixes #3 fixes #3` yields the
duplicated `[3, 3]`. -/
theorem c5_keyword_filter_amended :
    (∀ (owner repo text : String) (n : Nat),
      n ∈ findReferencedIssues owner repo text →
      ∃ w d, ((w, d) ∈ scanHash text.toList ∨
          (w, d) ∈ scanUrl owner repo text.toList) ∧
        lowerStr w ∈ GITHUB_CLOSE_ISSUE_KEYWORDS ∧ n = parseDigits d ∧
        w ≠ [] ∧ w.all isWordChar = true ∧ d ≠ [] ∧
        d.all isDigitChar = true) ∧
    (∀ (owner repo text : String),
      findReferencedIssues owner repo text =
        (issuesClosed (scanHash text.toList)).map parseDigits ++
        (issuesClosed (scanUrl owner repo text.toList)).map parseDigits) ∧
    findReferencedIssues "o" "r" "Fixes #12" = [12] ∧
    findReferencedIssues "o" "r" "Mentions #12" = [] ∧
    findReferencedIssues "o" "r" "fixes #3 fixes #3" = [3, 3] := by
  refine ⟨?_, ?_, by decide, by decide, by decide⟩
  · intro owner repo text n h
    obtain ⟨w, d, hmem, hkw, hn⟩ := mem_findReferencedIssues h
    have hshape : w ≠ [] ∧ w.all isWordChar = true ∧ d ≠ [] ∧
        d.all isDigitChar = true := by
      rcases hmem with hm | hm
      · exact scanAux_mem_shape (fun _ _ _ _ hh => tryHashAt_shape hh) _ _ _ _ hm
      · exact scanAux_mem_shape (fun _ _ _ _ hh => tryUrlAt_shape hh) _ _ _ _ hm
    exact ⟨w, d, hmem, hkw, hn, hshape⟩
  · intro owner repo text
    simp [findReferencedIssues, List.map_append]

/-- C5 amended witness: the provenance clause applied to `Fixes #12` and the
returned issue number 12. -/
theorem c5_keyword_filter_amended_witness :
    12 ∈ findReferencedIssues "o" "r" "Fixes #12" ∧
    ∃ w d, ((w, d) ∈ scanHash ("Fixes #12" : String).toList ∨
        (w, d) ∈ scanUrl "o" "r" ("Fixes #12" : String).toList) ∧
      lowerStr w ∈ GITHUB_CLOSE_ISSUE_KEYWORDS ∧ 12 = parseDigits d ∧
      w ≠ [] ∧ w.all isWordChar = true ∧ d ≠ [] ∧ d.all isDigitChar = true :=
  ⟨by decide, c5_keyword_filter_amended.1 "o" "r" "Fixes #12" 12 (by decide)⟩

/-- C6 counterexample: with default candidate lists, a PR labelled
`{bug, feature-request}` referencing issues whose label union is empty keeps
both classification candidates after reconciliation (classification has no
resolution, so its labels are left untouched), violating the claimed
at-most-one-per-category invariant of the final label set. -/
theorem c6_at_most_one_counterexample :
    newPullLabels defaultCfg ["bug", "feature-request"] [] =
      ["bug", "feature-request", "p2"] ∧
    "bug" ∈ defaultCfg.classificationLabels ∧
    "feature-request" ∈ defaultCfg.classificationLabels ∧
    ¬ atMostOneOf defaultCfg.classificationLabels
      (newPullLabels defaultCfg ["bug", "feature-request"] []) := by
  refine ⟨by decide, by decide, by decide, ?_⟩
  intro h
  have := h "bug" (by decide) "feature-request" (by decide)
    (by decide) (by decide)
  exact absurd this (by decide)

/-- C6 amended: with a non-empty priority list and pairwise-disjoint candidate
lists, the final label set contains at most one priority candidate
unconditionally; it contains at most one classification (resp. effort)
candidate provided that category resolved on the issue-label union or the
initial PR label set already contained at most one candidate of that
category. -/
theorem c6_at_most_one_amended (cfg : Config) (S U : List Label)
    (hne : cfg.priorityLabels ≠ [])
    (hPC : ∀ a ∈ cfg.priorityLabels, a ∉ cfg.classificationLabels)
    (hPE : ∀ a ∈ cfg.priorityLabels, a ∉ cfg.effortLabels)
    (hCE : ∀ a ∈ cfg.classificationLabels, a ∉ cfg.effortLabels) :
    atMostOneOf cfg.priorityLabels (newPullLabels cfg S U) ∧
    ((classification cfg U ≠ none ∨ atMostOneOf cfg.classificationLabels S) →
      atMostOneOf cfg.classificationLabels (newPullLabels cfg S U)) ∧
    ((largestEffort cfg U ≠ none ∨ atMostOneOf cfg.effortLabels S) →
      atMostOneOf cfg.effortLabels (newPullLabels cfg S U)) := by
  obtain ⟨r, hr, hrP⟩ := highestPriorityLabel_spec cfg U S hne
  have hPmem := priority_mem_newPullLabels hr hPC hPE
  refine ⟨?_, ?_, ?_⟩
  · intro a ha b hb haF hbF
    rw [(hPmem a ha)] at haF
    rw [(hPmem b hb)] at hbF
    rw [haF, hbF]
  · intro hyp
    rcases hcls : classification cfg U with _ | c
    · have hAM : atMostOneOf cfg.classificationLabels S := by
        rcases hyp with hyp | hyp
        · exact absurd hcls hyp
        · exact hyp
      have hchar : ∀ x ∈ cfg.classificationLabels,
          (x ∈ newPullLabels cfg S U ↔ x ∈ S) := by
        intro x hx
        have hxP : x ∉ cfg.priorityLabels := fun hxp => (hPC x hxp) hx
        have hxr : x ≠ r := fun hh => (hPC r hrP) (hh ▸ hx)
        unfold newPullLabels
        rw [hr, hcls]
        rw [mem_replaceLabels_untouched _ _ _ (hCE x hx)
          (fun e he hpe => (hCE x hx) (hpe ▸ (largestEffort_eq_some he).1))]
        rw [replaceLabels_none]
        rw [mem_replaceLabels_some]
        constructor
        · rintro (⟨hs, _⟩ | hh)
          · exact hs
          · exact absurd hh hxr
        · exact fun hs => Or.inl ⟨hs, hxP⟩
      intro a ha b hb haF hbF
      exact hAM a ha b hb ((hchar a ha).mp haF) ((hchar b hb).mp hbF)
    · have hchar : ∀ x ∈ cfg.classificationLabels,
          (x ∈ newPullLabels cfg S U ↔ x = c) := by
        intro x hx
        unfold newPullLabels
        rw [hr, hcls]
        rw [mem_replaceLabels_untouched _ _ _ (hCE x hx)
          (fun e he hpe => (hCE x hx) (hpe ▸ (largestEffort_eq_some he).1))]
        rw [mem_replaceLabels_some]
        constructor
        · rintro (⟨_, hnc⟩ | hh)
          · exact absurd hx hnc
          · exact hh
        · exact fun hh => Or.inr hh
      intro a ha b hb haF hbF
      rw [(hchar a ha)] at haF
      rw [(hchar b hb)] at hbF
      rw [haF, hbF]
  · intro hyp
    rcases heff : largestEffort cfg U with _ | e
    · have hAM : atMostOneOf cfg.effortLabels S := by
        rcases hyp with hyp | hyp
        · exact absurd heff hyp
        · exact hyp
      have hchar : ∀ x ∈ cfg.effortLabels,
          (x ∈ newPullLabels cfg S U ↔ x ∈ S) := by
        intro x hx
        have hxP : x ∉ cfg.priorityLabels := fun hxp => (hPE x hxp) hx
        have hxC : x ∉ cfg.classificationLabels := fun hxc => (hCE x hxc) hx
        have hxr : x ≠ r := fun hh => (hPE r hrP) (hh ▸ hx)
        unfold newPullLabels
        rw [hr, heff]
        rw [replaceLabels_none]
        rw [mem_replaceLabels_untouched _ _ _ hxC
          (fun c hcc hpc => (hCE c (classification_eq_some hcc).1) (hpc ▸ hx))]
        rw [mem_replaceLabels_some]
        constructor
        · rintro (⟨hs, _⟩ | hh)
          · exact hs
          · exact absurd hh hxr
        · exact fun hs => Or.inl ⟨hs, hxP⟩
      intro a ha b hb haF hbF
      exact hAM a ha b hb ((hchar a ha).mp haF) ((hchar b hb).mp hbF)
    · have hchar : ∀ x ∈ cfg.effortLabels,
          (x ∈ newPullLabels cfg S U ↔ x = e) := by
        intro x hx
        unfold newPullLabels
        rw [hr, heff]
        rw [mem_replaceLabels_some]
        constructor
        · rintro (⟨_, hne2⟩ | hh)
          · exact absurd hx hne2
          · exact hh
        · exact fun hh => Or.inr hh
      intro a ha b hb haF hbF
      rw [(hchar a ha)] at haF
      rw [(hchar b hb)] at hbF
      rw [haF, hbF]

/-- C6 amended witness: default lists, PR labels `{bug, p0, p1}`, issue union
`{p1}`; all hypotheses hold and the amended invariant applies. -/
theorem c6_at_most_one_amended_witness :
    defaultCfg.priorityLabels ≠ [] ∧
    (∀ a ∈ defaultCfg.priorityLabels,
      a ∉ defaultCfg.classificationLabels) ∧
    (∀ a ∈ defaultCfg.priorityLabels, a ∉ defaultCfg.effortLabels) ∧
    (∀ a ∈ defaultCfg.classificationLabels,
      a ∉ defaultCfg.effortLabels) ∧
    (atMostOneOf defaultCfg.priorityLabels
      (newPullLabels defaultCfg ["bug", "p0", "p1"] ["p1"]) ∧
    ((classification defaultCfg ["p1"] ≠ none ∨
        atMostOneOf defaultCfg.classificationLabels ["bug", "p0", "p1"]) →
      atMostOneOf defaultCfg.classificationLabels
        (newPullLabels defaultCfg ["bug", "p0", "p1"] ["p1"])) ∧
    ((largestEffort defaultCfg ["p1"] ≠ none ∨
        atMostOneOf defaultCfg.effortLabels ["bug", "p0", "p1"]) →
      atMostOneOf defaultCfg.effortLabels
        (newPullLabels defaultCfg ["bug", "p0", "p1"] ["p1"]))) :=
  ⟨by decide, by decide, by decide, by decide,
    c6_at_most_one_amended defaultCfg ["bug", "p0", "p1"] ["p1"]
      (by decide) (by decide) (by decide) (by decide)⟩

set_option maxHeartbeats 2000000 in
/-- C10: with a non-empty priority list and pairwise-disjoint candidate lists,
the resolve-and-replace step is idempotent on label-set membership: applying it
to its own output with the same issue-label union yields the same label set
(same members), so the second run's diff against the first run's output is
empty. -/
theorem c10_reconciliation_idempotent (cfg : Config) (S U : List Label)
    (hne : cfg.priorityLabels ≠ [])
    (hPC : ∀ a ∈ cfg.priorityLabels, a ∉ cfg.classificationLabels)
    (hPE : ∀ a ∈ cfg.priorityLabels, a ∉ cfg.effortLabels)
    (hCE : ∀ a ∈ cfg.classificationLabels, a ∉ cfg.effortLabels) :
    (∀ x, x ∈ newPullLabels cfg (newPullLabels cfg S U) U ↔
      x ∈ newPullLabels cfg S U) ∧
    isEmptyDiff (setDiff (newPullLabels cfg S U)
      (newPullLabels cfg (newPullLabels cfg S U) U)) = true := by
  obtain ⟨r, hr, hrP⟩ := highestPriorityLabel_spec cfg U S hne
  have hPmem := priority_mem_newPullLabels hr hPC hPE
  have hr2 : highestPriorityLabel cfg U (newPullLabels cfg S U) = some r := by
    unfold highestPriorityLabel at hr ⊢
    cases h1 : cfg.priorityLabels.find? (fun l => decide (l ∈ U)) with
    | some w =>
      rw [h1] at hr
      simp only [Option.orElse] at hr ⊢
      exact hr
    | none =>
      have hcongr :
          cfg.priorityLabels.find?
              (fun l => decide (l ∈ newPullLabels cfg S U)) =
            cfg.priorityLabels.find? (fun l => decide (l = r)) :=
        find?_congr_pred _ _ _
          (fun x hx => decide_eq_decide.mpr (hPmem x hx))
      rw [hcongr, find?_eq_some_of_mem_unique _ r hrP]
      simp [Option.orElse]
  have hmem : ∀ x, x ∈ newPullLabels cfg (newPullLabels cfg S U) U ↔
      x ∈ newPullLabels cfg S U := by
    rcases hcls : classification cfg U with _ | c <;>
      rcases heff : largestEffort cfg U with _ | e
    · have hstep : ∀ (T : List Label), highestPriorityLabel cfg U T = some r →
          ∀ x, x ∈ newPullLabels cfg T U ↔
            (x ∈ T ∧ x ∉ cfg.priorityLabels) ∨ x = r := by
        intro T hrT x
        simp only [newPullLabels, hrT, hcls, heff, replaceLabels_none,
          mem_replaceLabels_some]
      intro x
      rw [hstep _ hr2 x, hstep S hr x]
      tauto
    · have hstep : ∀ (T : List Label), highestPriorityLabel cfg U T = some r →
          ∀ x, x ∈ newPullLabels cfg T U ↔
            ((((x ∈ T ∧ x ∉ cfg.priorityLabels) ∨ x = r) ∧
              x ∉ cfg.effortLabels) ∨ x = e) := by
        intro T hrT x
        simp only [newPullLabels, hrT, hcls, heff, replaceLabels_none,
          mem_replaceLabels_some]
      intro x
      have hxrE : x = r → x ∉ cfg.effortLabels := fun hh => by
        rw [hh]; exact hPE r hrP
      rw [hstep _ hr2 x, hstep S hr x]
      tauto
    · have hstep : ∀ (T : List Label), highestPriorityLabel cfg U T = some r →
          ∀ x, x ∈ newPullLabels cfg T U ↔
            ((((x ∈ T ∧ x ∉ cfg.priorityLabels) ∨ x = r) ∧
              x ∉ cfg.classificationLabels) ∨ x = c) := by
        intro T hrT x
        simp only [newPullLabels, hrT, hcls, heff, replaceLabels_none,
          mem_replaceLabels_some]
      intro x
      have hxrC : x = r → x ∉ cfg.classificationLabels := fun hh => by
        rw [hh]; exact hPC r hrP
      rw [hstep _ hr2 x, hstep S hr x]
      tauto
    · have hstep : ∀ (T : List Label), highestPriorityLabel cfg U T = some r →
          ∀ x, x ∈ newPullLabels cfg T U ↔
            ((((((x ∈ T ∧ x ∉ cfg.priorityLabels) ∨ x = r) ∧
              x ∉ cfg.classificationLabels) ∨ x = c) ∧
              x ∉ cfg.effortLabels) ∨ x = e) := by
        intro T hrT x
        simp only [newPullLabels, hrT, hcls, heff, replaceLabels_none,
          mem_replaceLabels_some]
      intro x
      have hxrC : x = r → x ∉ cfg.classificationLabels := fun hh => by
        rw [hh]; exact hPC r hrP
      have hxrE : x = r → x ∉ cfg.effortLabels := fun hh => by
        rw [hh]; exact hPE r hrP
      have hxcE : x = c → x ∉ cfg.effortLabels := fun hh => by
        rw [hh]; exact hCE c (classification_eq_some hcls).1
      rw [hstep _ hr2 x, hstep S hr x]
      tauto
  refine ⟨hmem, ?_⟩
  simp only [isEmptyDiff, setDiff, beq_iff_eq, Nat.add_eq_zero,
    List.length_eq_zero, List.filter_eq_nil_iff]
  constructor
  · intro a ha
    simp [(hmem a).mp ha]
  · intro a ha
    simp [(hmem a).mpr ha]

/-- C10 witness: default lists, PR labels `{p2, feature-request}`, issue union
`{p0, bug}`; the second application produces an empty diff. -/
theorem c10_reconciliation_idempotent_witness :
    defaultCfg.priorityLabels ≠ [] ∧
    (∀ a ∈ defaultCfg.priorityLabels,
      a ∉ defaultCfg.classificationLabels) ∧
    (∀ a ∈ defaultCfg.priorityLabels, a ∉ defaultCfg.effortLabels) ∧
    (∀ a ∈ defaultCfg.classificationLabels,
      a ∉ defaultCfg.effortLabels) ∧
    isEmptyDiff (setDiff
      (newPullLabels defaultCfg ["p2", "feature-request"] ["p0", "bug"])
      (newPullLabels defaultCfg
        (newPullLabels defaultCfg ["p2", "feature-request"] ["p0", "bug"])
        ["p0", "bug"])) = true :=
  ⟨by decide, by decide, by decide, by decide,
    (c10_reconciliation_idempotent defaultCfg ["p2", "feature-request"]
      ["p0", "bug"] (by decide) (by decide) (by decide) (by decide)).2⟩

end PrTriage
